import Mathlib

/-!
Verification of `file_finder.py` (gphoto-cleaner).

Shallow embedding conventions:

* Characters and strings of the Python program are modelled as `List Char`.
  Only the ASCII fragment matters for the program's behaviour; this is noted
  where a Python primitive (`str.strip`, `int`) also accepts non-ASCII input.
* `os.walk(root_folder)` is modelled by its output: a list of `WalkEntry`
  values, one per visited directory, each carrying the directory path and the
  base names of the plain files inside it.  With the default `onerror=None`,
  `os.walk` of a nonexistent or unreadable root yields the empty list and
  raises nothing.  Base names produced by `os.walk` contain no path
  separator, so a discovered file is faithfully represented by the pair
  (directory, base name); `os.path.join` / `os.path.basename` then correspond
  to pairing and to the second projection.
* Python dicts preserve insertion order; `found_files` is therefore an
  association list with unique keys, inserted by `addFile`.
* The copy loop's interactions with the world (the per-second clock read by
  `time.time()`, and the success or failure of each `shutil.copy`) are passed
  in as oracles indexed by the attempt number: `clock : Nat → Nat` and
  `outcome : Nat → Bool`.  Every per-file exception is caught by the
  `try/except` in the source, which is why the embedded `copy_files` is a
  total function.
-/

/-- A file extension, e.g. `.txt`, used as the grouping key (`List Char`). -/
abbrev FileExtension := List Char

/-- A discovered file: the directory it was found in, and its base name. -/
abbrev FileRecord := List Char × List Char

/-- The grouping dict built by `find_files`: insertion-ordered association
list from extension to the files discovered with that extension. -/
abbrev FoundFiles := List (FileExtension × List FileRecord)

/-- One directory visited by `os.walk`: its path and the base names of the
plain files it contains (`files` in `for subdir, _, files in os.walk(...)`). -/
structure WalkEntry where
  subdir : List Char
  files : List (List Char)

/-- Python's substring test `sub in s` (case-sensitive, literal): `sub` occurs
contiguously in `s`.  The empty string is a substring of everything. -/
def isSubstr (sub : List Char) : List Char → Bool
  | [] => sub.isEmpty
  | c :: rest => sub.isPrefixOf (c :: rest) || isSubstr sub rest

/-- The exclusion test of `find_files`:
`any(sub in file for sub in exclude_substrings)`, applied to the base name. -/
def excludedB (excl : List (List Char)) (name : List Char) : Bool :=
  excl.any (fun sub => isSubstr sub name)

/-- Index of the last `.` in a name (`str.rfind('.')`), or `none`. -/
def rfindDot (name : List Char) : Option Nat :=
  (List.range name.length).foldl
    (fun acc i => if name.get? i = some '.' then some i else acc) none

/-- The extension component of `os.path.splitext(name)` for a base name
containing no path separator, following CPython `genericpath._splitext`:
the extension starts at the last `.`, unless every character before that `.`
is itself a `.` (leading dots are not extension separators, so `.bashrc` and
`..gz` have empty extension), in which case it is empty. -/
def splitextExt (name : List Char) : List Char :=
  match rfindDot name with
  | none => []
  | some d =>
    if (List.range d).all (fun i => decide (name.get? i = some '.')) then []
    else name.drop d

/-- Insertion into the `found_files` dict: append to the existing entry for
this key, or add a new key at the end (Python dict insertion order). -/
def addFile (d : FoundFiles) (ext : FileExtension) (f : FileRecord) : FoundFiles :=
  match d with
  | [] => [(ext, [f])]
  | (e, fs) :: rest =>
    if e = ext then (e, fs ++ [f]) :: rest else (e, fs) :: addFile rest ext f

/-- The body of the inner loop of `find_files` for one base name: skip the
file if excluded, otherwise insert it under its splitext extension. -/
def stepFile (excl : List (List Char)) (subdir : List Char)
    (acc : FoundFiles) (name : List Char) : FoundFiles :=
  if excludedB excl name then acc
  else addFile acc (splitextExt name) (subdir, name)

/-- Processing of one `os.walk` entry: the inner `for file in files` loop. -/
def addEntryFiles (excl : List (List Char)) (subdir : List Char)
    (names : List (List Char)) (acc : FoundFiles) : FoundFiles :=
  names.foldl (stepFile excl subdir) acc

/-- `find_files(root_folder, exclude_substrings)`, as a function of the walk
that `os.walk(root_folder)` produces. -/
def find_files (walk : List WalkEntry) (excl : List (List Char)) : FoundFiles :=
  walk.foldl (fun acc e => addEntryFiles excl e.subdir e.files acc) []

/-- Membership of file `x` in the bucket for extension `e` of dict `d`. -/
def Present (e : FileExtension) (x : FileRecord) (d : FoundFiles) : Prop :=
  ∃ fs, (e, fs) ∈ d ∧ x ∈ fs

/-- The statistics dict of `copy_files`:
`stats = dict(total_files=0, copied_files=0, failed_files=0)` with the keys
written as fields. -/
structure CopyStats where
  total : Nat
  copied : Nat
  failed : Nat
deriving DecidableEq

/-- One file-copy attempt of the copy loop: the source file, the destination
name it was written under, and whether `shutil.copy` succeeded.  The
destination name `f"\x7bint(time.time())\x7d_" + basename` is represented by
the pair (timestamp, basename); since the rendered timestamp contains no
underscore, the pair determines the rendered name and vice versa, so equality
of pairs is equality of destination names. -/
structure CopyEvent where
  src : FileRecord
  dest : Nat × List Char
  ok : Bool
deriving DecidableEq

/-- The mutable state of one run of the copy loop: the `stats` dict, the
`copied_files` attempt counter, and the traces of copy attempts and of
`print_progress(copied_files, total_files)` calls. -/
structure RunState where
  stats : CopyStats
  attempts : Nat
  events : List CopyEvent
  progress : List (Nat × Nat)
deriving DecidableEq

/-- State at the top of `copy_files`, before the loop. -/
def initState : RunState :=
  { stats := { total := 0, copied := 0, failed := 0 }
    attempts := 0, events := [], progress := [] }

/-- The pre-computed progress denominator of `copy_files`:
`sum(len(file_list) for ext, file_list in files.items() if ext in
selected_extensions)`. -/
def total_files (files : FoundFiles) (selected : List FileExtension) : Nat :=
  ((files.filter (fun p => decide (p.1 ∈ selected))).map
    (fun p => p.2.length)).sum

/-- The body of the inner `for file in file_list` loop of `copy_files`:
increment `total_files` in stats, build the destination name from the current
clock value, attempt the copy (its outcome given by the oracle), increment
`copied_files`/`failed_files` accordingly, then `copied_files += 1` and
`print_progress(copied_files, total_files)`. -/
def processFile (clock : Nat → Nat) (outcome : Nat → Bool) (T : Nat)
    (s : RunState) (f : FileRecord) : RunState :=
  let t := clock s.attempts
  let ok := outcome s.attempts
  { stats :=
      if ok then
        { total := s.stats.total + 1, copied := s.stats.copied + 1
          failed := s.stats.failed }
      else
        { total := s.stats.total + 1, copied := s.stats.copied
          failed := s.stats.failed + 1 }
    attempts := s.attempts + 1
    events := s.events ++ [{ src := f, dest := (t, f.2), ok := ok }]
    progress := s.progress ++ [(s.attempts + 1, T)] }

/-- The body of the outer `for extension, file_list in files.items()` loop:
the inner loop runs only when `extension in selected_extensions`. -/
def copyStep (selected : List FileExtension) (clock : Nat → Nat)
    (outcome : Nat → Bool) (T : Nat)
    (s : RunState) (p : FileExtension × List FileRecord) : RunState :=
  if p.1 ∈ selected then p.2.foldl (processFile clock outcome T) s else s

/-- The whole loop of `copy_files(files, selected_extensions,
destination_folder)`, returning the final run state.  The destination
directory creation (`os.makedirs`) that precedes the loop touches no state
modelled here. -/
def runCopy (files : FoundFiles) (selected : List FileExtension)
    (clock : Nat → Nat) (outcome : Nat → Bool) : RunState :=
  files.foldl (copyStep selected clock outcome (total_files files selected))
    initState

/-- `copy_files` proper: the `stats` dict it returns. -/
def copy_files (files : FoundFiles) (selected : List FileExtension)
    (clock : Nat → Nat) (outcome : Nat → Bool) : CopyStats :=
  (runCopy files selected clock outcome).stats

/-- The destination directory contents after a run, as the set (duplicate-free
list) of names present: a name is present exactly when some successful copy
wrote it; a later `shutil.copy` to the same name overwrites the earlier file
but the name remains present once. -/
def destFiles (events : List CopyEvent) : List (Nat × List Char) :=
  ((events.filter (fun ev => ev.ok)).map (fun ev => ev.dest)).dedup

/-- Python `s.split(',')`: always at least one token; adjacent commas and
leading/trailing commas yield empty tokens (`''.split(',') == ['']`). -/
def splitCommaAux : List Char → List Char → List (List Char)
  | [], cur => [cur.reverse]
  | c :: rest, cur =>
    if c = ',' then cur.reverse :: splitCommaAux rest []
    else splitCommaAux rest (c :: cur)

/-- `s.split(',')` on the input line. -/
def splitComma (s : List Char) : List (List Char) := splitCommaAux s []

/-- Python `str.strip()` restricted to ASCII whitespace: drop whitespace from
both ends. -/
def strip (s : List Char) : List Char :=
  ((s.dropWhile Char.isWhitespace).reverse.dropWhile Char.isWhitespace).reverse

/-- Digit tail of Python `int(s)` after the first digit: further digits, with
single underscores allowed between digits (`int('1_2') == 12`), anything else
a failure. -/
def pyDigitsAux : List Char → Nat → Option Nat
  | [], acc => some acc
  | c :: rest, acc =>
    if c.isDigit then pyDigitsAux rest (acc * 10 + (c.toNat - 48))
    else if c = '_' then
      match rest with
      | [] => none
      | d :: rest2 =>
        if d.isDigit then pyDigitsAux rest2 (acc * 10 + (d.toNat - 48))
        else none
    else none

/-- The digit part of Python `int(s)`: at least one digit required. -/
def pyDigitsStart : List Char → Option Nat
  | [] => none
  | c :: rest => if c.isDigit then pyDigitsAux rest (c.toNat - 48) else none

/-- Python `int(s)` on an already-stripped ASCII string: optional sign then a
nonempty digit part; `int('')` and any non-numeric token fail (ValueError).
Non-ASCII digits, which CPython would also accept, are out of scope. -/
def pyInt (s : List Char) : Option Int :=
  match s with
  | [] => none
  | c :: rest =>
    if c = '+' then (pyDigitsStart rest).map (fun n => (n : Int))
    else if c = '-' then (pyDigitsStart rest).map (fun n => -(n : Int))
    else (pyDigitsStart (c :: rest)).map (fun n => (n : Int))

/-- Python list indexing `l[i]`: nonnegative indices from the front, negative
indices from the back (`l[-1]` is the last element); `none` is IndexError. -/
def pyIndex {α : Type} (l : List α) (i : Int) : Option α :=
  if 0 ≤ i then l.get? i.toNat
  else if 0 ≤ i + l.length then l.get? (i + l.length).toNat else none

/-- The exceptions `get_user_selected_extensions` can raise: ValueError from
`int(...)` on the offending stripped token, IndexError from
`available_extensions[idx-1]` on the offending effective index. -/
inductive PyErr where
  | valueError : List Char → PyErr
  | indexError : Int → PyErr
deriving DecidableEq

/-- One element of the first comprehension:
`int(idx.strip())` for a raw token of the input line. -/
def parseTok (t : List Char) : Except PyErr Int :=
  match pyInt (strip t) with
  | some n => Except.ok n
  | none => Except.error (PyErr.valueError (strip t))

/-- One element of the second comprehension:
`available_extensions[idx-1]` for a parsed index. -/
def lookupIdx (available : List FileExtension) (i : Int) :
    Except PyErr FileExtension :=
  match pyIndex available (i - 1) with
  | some e => Except.ok e
  | none => Except.error (PyErr.indexError (i - 1))

/-- A Python list comprehension whose body may raise: elements are produced
left to right and the first exception aborts the whole comprehension. -/
def mapE {α β : Type} (f : α → Except PyErr β) : List α → Except PyErr (List β)
  | [] => Except.ok []
  | a :: as =>
    match f a with
    | Except.error e => Except.error e
    | Except.ok b =>
      match mapE f as with
      | Except.error e => Except.error e
      | Except.ok bs => Except.ok (b :: bs)

/-- `get_user_selected_extensions(available_extensions)` as a function of the
input line read from stdin: split on commas, strip and parse every token as an
int, then index `available_extensions` at each `idx-1`.  An `Except.error` is
the exception the Python call would raise. -/
def get_user_selected_extensions (available : List FileExtension)
    (line : List Char) : Except PyErr (List FileExtension) :=
  match mapE parseTok (splitComma line) with
  | Except.error e => Except.error e
  | Except.ok idxs => mapE (lookupIdx available) idxs

/-- The suffix of a name starting at its last `.` (empty if no `.`). -/
def suffixFromLastDot : List Char → List Char
  | [] => []
  | c :: rest =>
    if rest.contains '.' then suffixFromLastDot rest
    else if c = '.' then c :: rest
    else suffixFromLastDot rest

/-- Modelled from the wording of claim C5 (for comparison with the code's
`splitextExt`): the bucket key is the substring of the base name following its
last `.` including the separator, or empty if the name contains no `.`,
where the empty case also covers names whose only `.` is the leading
character. -/
def specExtC5 (name : List Char) : List Char :=
  if name.contains '.' then
    if name.head? = some '.' ∧ name.tail.contains '.' = false then []
    else suffixFromLastDot name
  else []

/-- Demo walk for witnesses: one directory `r` holding `a.txt` and `c.txt`. -/
def demoWalk : List WalkEntry :=
  [⟨"r".toList, ["a.txt".toList, "c.txt".toList]⟩]

/-- Demo exclusion list for witnesses: names containing `c` are skipped. -/
def demoExcl : List (List Char) := ["c".toList]

/-- Demo extension for witnesses. -/
def demoExt : FileExtension := ".txt".toList

/-- Demo file for witnesses. -/
def demoFile : FileRecord := ("r".toList, "a.txt".toList)

/-- Demo dict for witnesses: one `.txt` bucket holding one file. -/
def demoFiles : FoundFiles := [(demoExt, [demoFile])]

/-- An invariant preserved by every step of a left fold holds afterwards. -/
theorem foldl_inv_mem {σ α : Type} (P : σ → Prop) (step : σ → α → σ) :
    ∀ l : List α, (∀ s a, a ∈ l → P s → P (step s a)) →
      ∀ s, P s → P (l.foldl step s) := by
  intro l
  induction l with
  | nil => intro _ s hs; simpa using hs
  | cons a as ih =>
    intro hstep s hs
    simp only [List.foldl_cons]
    exact ih (fun s' b hb => hstep s' b (List.mem_cons_of_mem a hb)) (step s a)
      (hstep s a (List.mem_cons_self a as) hs)

/-- One file attempt increments the `total_files` counter by one. -/
theorem processFile_total (clock : Nat → Nat) (outcome : Nat → Bool) (T : Nat)
    (s : RunState) (f : FileRecord) :
    (processFile clock outcome T s f).stats.total = s.stats.total + 1 := by
  cases h : outcome s.attempts <;> simp [processFile, h]

/-- One file attempt increments exactly one of `copied_files`/`failed_files`. -/
theorem processFile_copied_failed (clock : Nat → Nat) (outcome : Nat → Bool)
    (T : Nat) (s : RunState) (f : FileRecord) :
    (processFile clock outcome T s f).stats.copied
        + (processFile clock outcome T s f).stats.failed
      = s.stats.copied + s.stats.failed + 1 := by
  cases h : outcome s.attempts <;> simp [processFile, h] <;> omega

/-- With no extension selected, the whole loop of `copy_files` is a no-op. -/
theorem foldl_copyStep_nil (clock : Nat → Nat) (outcome : Nat → Bool) (T : Nat) :
    ∀ (l : FoundFiles) (s : RunState),
      l.foldl (copyStep [] clock outcome T) s = s := by
  intro l
  induction l with
  | nil => intro s; rfl
  | cons p ps ih =>
    intro s
    simp only [List.foldl_cons, copyStep, List.not_mem_nil, if_false]
    exact ih s

/-- `total == copied + failed` holds for the stats returned by the loop. -/
theorem runCopy_total_eq (files : FoundFiles) (selected : List FileExtension)
    (clock : Nat → Nat) (outcome : Nat → Bool) :
    (runCopy files selected clock outcome).stats.total
      = (runCopy files selected clock outcome).stats.copied
        + (runCopy files selected clock outcome).stats.failed := by
  unfold runCopy
  apply foldl_inv_mem
    (fun s => s.stats.total = s.stats.copied + s.stats.failed)
    (copyStep selected clock outcome (total_files files selected)) files
  · intro s p _ hp
    unfold copyStep
    by_cases hmem : p.1 ∈ selected
    · simp only [if_pos hmem]
      apply foldl_inv_mem
        (fun s => s.stats.total = s.stats.copied + s.stats.failed)
        (processFile clock outcome (total_files files selected)) p.2
      · intro s' f _ h
        rw [processFile_total, processFile_copied_failed, h]
      · exact hp
    · simpa [if_neg hmem] using hp
  · rfl

/-- With the all-failures outcome oracle, `copied_files` stays `0` and
`failed_files` tracks `total_files` throughout the loop. -/
theorem runCopy_all_failed (files : FoundFiles) (selected : List FileExtension)
    (clock : Nat → Nat) :
    (runCopy files selected clock (fun _ => false)).stats.copied = 0
      ∧ (runCopy files selected clock (fun _ => false)).stats.failed
        = (runCopy files selected clock (fun _ => false)).stats.total := by
  unfold runCopy
  apply foldl_inv_mem
    (fun s => s.stats.copied = 0 ∧ s.stats.failed = s.stats.total)
    (copyStep selected clock (fun _ => false) (total_files files selected))
    files
  · intro s p _ hp
    unfold copyStep
    by_cases hmem : p.1 ∈ selected
    · simp only [if_pos hmem]
      apply foldl_inv_mem
        (fun s => s.stats.copied = 0 ∧ s.stats.failed = s.stats.total)
        (processFile clock (fun _ => false) (total_files files selected)) p.2
      · intro s' f _ h
        simp [processFile, h.1, h.2]
      · exact hp
    · simpa [if_neg hmem] using hp
  · exact ⟨rfl, rfl⟩

/-- Every file-list length counted by `total_files` bounds it from below. -/
theorem total_files_cons (p : FileExtension × List FileRecord)
    (ps : FoundFiles) (selected : List FileExtension) :
    total_files (p :: ps) selected
      = (if p.1 ∈ selected then p.2.length else 0)
        + total_files ps selected := by
  unfold total_files
  by_cases h : p.1 ∈ selected
  · simp [List.filter_cons, h]
  · simp [List.filter_cons, h]

/-- A selected bucket's size is at most the progress denominator. -/
theorem length_le_total_files (files : FoundFiles)
    (selected : List FileExtension) (p : FileExtension × List FileRecord)
    (hmem : p ∈ files) (hsel : p.1 ∈ selected) :
    p.2.length ≤ total_files files selected := by
  induction files with
  | nil => cases hmem
  | cons q qs ih =>
    rw [total_files_cons]
    rcases List.mem_cons.mp hmem with heq | htail
    · subst heq
      simp [hsel]
    · have := ih htail
      omega

/-- Every recorded `print_progress` call has the pre-computed denominator as
its second argument, and that denominator is strictly positive. -/
theorem runCopy_progress_pos (files : FoundFiles)
    (selected : List FileExtension) (clock : Nat → Nat) (outcome : Nat → Bool) :
    ∀ pr ∈ (runCopy files selected clock outcome).progress,
      pr.2 = total_files files selected ∧ 0 < total_files files selected := by
  unfold runCopy
  apply foldl_inv_mem
    (fun s => ∀ pr ∈ s.progress,
      pr.2 = total_files files selected ∧ 0 < total_files files selected)
    (copyStep selected clock outcome (total_files files selected)) files
  · intro s p hpfiles hp
    unfold copyStep
    by_cases hmem : p.1 ∈ selected
    · simp only [if_pos hmem]
      cases hfl : p.2 with
      | nil => simpa [hfl] using hp
      | cons f fs =>
        have hTpos : 0 < total_files files selected := by
          have := length_le_total_files files selected p hpfiles hmem
          rw [hfl] at this
          simp at this
          omega
        rw [← hfl]
        apply foldl_inv_mem
          (fun s => ∀ pr ∈ s.progress,
            pr.2 = total_files files selected
              ∧ 0 < total_files files selected)
          (processFile clock outcome (total_files files selected)) p.2
        · intro s' f' _ h pr hpr
          cases hoc : outcome s'.attempts <;>
            simp only [processFile, hoc, List.mem_append,
              List.mem_singleton] at hpr <;>
            rcases hpr with hold | hnew
          · exact h pr hold
          · rw [hnew]; exact ⟨rfl, hTpos⟩
          · exact h pr hold
          · rw [hnew]; exact ⟨rfl, hTpos⟩
        · exact hp
    · simpa [if_neg hmem] using hp
  · intro pr hpr
    cases hpr

/-- The inserted file is present in its bucket after `addFile`. -/
theorem addFile_present (d : FoundFiles) (ext : FileExtension)
    (f : FileRecord) : Present ext f (addFile d ext f) := by
  induction d with
  | nil => exact ⟨[f], List.mem_singleton_self _, List.mem_singleton_self _⟩
  | cons q rest ih =>
    obtain ⟨e, fs⟩ := q
    unfold addFile
    by_cases h : e = ext
    · subst h
      exact ⟨fs ++ [f], by simp, by simp⟩
    · obtain ⟨fs', hmem, hf⟩ := ih
      exact ⟨fs', by simp [h, hmem], hf⟩

/-- `addFile` never removes a file from a bucket. -/
theorem addFile_present_mono (d : FoundFiles) (ext e : FileExtension)
    (f x : FileRecord) (h : Present e x d) : Present e x (addFile d ext f) := by
  induction d with
  | nil => obtain ⟨fs, hmem, _⟩ := h; cases hmem
  | cons q rest ih =>
    obtain ⟨e0, fs0⟩ := q
    obtain ⟨fs, hmem, hx⟩ := h
    unfold addFile
    by_cases he : e0 = ext
    · subst he
      rw [if_pos rfl]
      rcases List.mem_cons.mp hmem with hhead | htail
      · obtain ⟨he', hfs⟩ := Prod.mk.injEq .. ▸ hhead
        subst he'
        exact ⟨fs0 ++ [f], List.mem_cons_self _ _, by
          rw [hfs] at hx; exact List.mem_append_left _ hx⟩
      · exact ⟨fs, List.mem_cons_of_mem _ htail, hx⟩
    · rw [if_neg he]
      rcases List.mem_cons.mp hmem with hhead | htail
      · exact ⟨fs, by simp [hhead], hx⟩
      · obtain ⟨fs', hmem', hx'⟩ := ih ⟨fs, htail, hx⟩
        exact ⟨fs', List.mem_cons_of_mem _ hmem', hx'⟩

/-- A file found in a bucket after `addFile` was already there, or is the
file just inserted (into its own bucket). -/
theorem addFile_mem_inv (d : FoundFiles) (ext e : FileExtension)
    (f x : FileRecord) (fs : List FileRecord)
    (hmem : (e, fs) ∈ addFile d ext f) (hx : x ∈ fs) :
    Present e x d ∨ (x = f ∧ e = ext) := by
  induction d with
  | nil =>
    simp only [addFile, List.mem_singleton] at hmem
    obtain ⟨he, hfs⟩ := Prod.mk.injEq .. ▸ hmem
    subst hfs
    right
    exact ⟨List.mem_singleton.mp hx, he⟩
  | cons q rest ih =>
    obtain ⟨e0, fs0⟩ := q
    unfold addFile at hmem
    by_cases he : e0 = ext
    · subst he
      rw [if_pos rfl] at hmem
      rcases List.mem_cons.mp hmem with hhead | htail
      · obtain ⟨he', hfs⟩ := Prod.mk.injEq .. ▸ hhead
        subst he'
        subst hfs
        rcases List.mem_append.mp hx with hold | hnew
        · exact Or.inl ⟨fs0, List.mem_cons_self _ _, hold⟩
        · exact Or.inr ⟨List.mem_singleton.mp hnew, rfl⟩
      · exact Or.inl ⟨fs, List.mem_cons_of_mem _ htail, hx⟩
    · rw [if_neg he] at hmem
      rcases List.mem_cons.mp hmem with hhead | htail
      · exact Or.inl ⟨fs, by simp [hhead], hx⟩
      · rcases ih htail with ⟨fs', hmem', hx'⟩ | hdone
        · exact Or.inl ⟨fs', List.mem_cons_of_mem _ hmem', hx'⟩
        · exact Or.inr hdone

/-- The key list after `addFile`: unchanged if the key was present, else the
new key is appended at the end. -/
theorem addFile_keys (d : FoundFiles) (ext : FileExtension) (f : FileRecord) :
    (addFile d ext f).map Prod.fst
      = if ext ∈ d.map Prod.fst then d.map Prod.fst
        else d.map Prod.fst ++ [ext] := by
  induction d with
  | nil => simp [addFile]
  | cons q rest ih =>
    obtain ⟨e0, fs0⟩ := q
    unfold addFile
    by_cases he : e0 = ext
    · subst he
      simp
    · simp only [if_neg he, List.map_cons, ih]
      by_cases hmem : ext ∈ rest.map Prod.fst
      · simp [hmem, Ne.symm he]
      · simp [hmem, Ne.symm he]

/-- Processing one base name preserves the bucket invariant: every stored
file sits under its own splitext extension and is not excluded. -/
theorem stepFile_inv (excl : List (List Char)) (subdir : List Char)
    (acc : FoundFiles) (name : List Char)
    (h : ∀ e fs, (e, fs) ∈ acc → ∀ x : FileRecord, x ∈ fs →
      e = splitextExt x.2 ∧ excludedB excl x.2 = false) :
    ∀ e fs, (e, fs) ∈ stepFile excl subdir acc name → ∀ x : FileRecord,
      x ∈ fs → e = splitextExt x.2 ∧ excludedB excl x.2 = false := by
  unfold stepFile
  by_cases hex : excludedB excl name = true
  · rw [if_pos hex]; exact h
  · rw [if_neg hex]
    intro e fs hmem x hx
    rcases addFile_mem_inv acc _ e _ x fs hmem hx with ⟨fs', hm', hx'⟩ | ⟨hxeq, heeq⟩
    · exact h e fs' hm' x hx'
    · subst hxeq
      exact ⟨heeq, Bool.not_eq_true _ ▸ hex⟩

/-- Processing one base name keeps the dict keys duplicate-free. -/
theorem stepFile_keys_nodup (excl : List (List Char)) (subdir : List Char)
    (acc : FoundFiles) (name : List Char)
    (h : (acc.map Prod.fst).Nodup) :
    ((stepFile excl subdir acc name).map Prod.fst).Nodup := by
  unfold stepFile
  by_cases hex : excludedB excl name = true
  · rw [if_pos hex]; exact h
  · rw [if_neg hex, addFile_keys]
    by_cases hk : splitextExt name ∈ acc.map Prod.fst
    · rw [if_pos hk]; exact h
    · rw [if_neg hk]
      refine h.append (List.nodup_singleton _) ?_
      intro a ha hb
      rw [List.mem_singleton.mp hb] at ha
      exact hk ha

/-- Bucket invariant and key uniqueness of the finished `find_files` dict. -/
theorem find_files_inv (walk : List WalkEntry) (excl : List (List Char)) :
    (∀ e fs, (e, fs) ∈ find_files walk excl → ∀ x : FileRecord, x ∈ fs →
      e = splitextExt x.2 ∧ excludedB excl x.2 = false)
    ∧ ((find_files walk excl).map Prod.fst).Nodup := by
  unfold find_files
  apply foldl_inv_mem
    (fun d => (∀ e fs, (e, fs) ∈ d → ∀ x : FileRecord, x ∈ fs →
        e = splitextExt x.2 ∧ excludedB excl x.2 = false)
      ∧ (d.map Prod.fst).Nodup)
    (fun acc w => addEntryFiles excl w.subdir w.files acc) walk
  · intro d w _ hd
    unfold addEntryFiles
    apply foldl_inv_mem
      (fun d => (∀ e fs, (e, fs) ∈ d → ∀ x : FileRecord, x ∈ fs →
          e = splitextExt x.2 ∧ excludedB excl x.2 = false)
        ∧ (d.map Prod.fst).Nodup)
      (stepFile excl w.subdir) w.files
    · intro d' n _ hd'
      exact ⟨stepFile_inv excl w.subdir d' n hd'.1,
        stepFile_keys_nodup excl w.subdir d' n hd'.2⟩
    · exact hd
  · exact ⟨fun e fs h => (by cases h), List.nodup_nil⟩

/-- Processing one base name never removes a file from a bucket. -/
theorem stepFile_present_mono (excl : List (List Char)) (subdir : List Char)
    (acc : FoundFiles) (name : List Char) (e : FileExtension) (x : FileRecord)
    (h : Present e x acc) : Present e x (stepFile excl subdir acc name) := by
  unfold stepFile
  by_cases hex : excludedB excl name = true
  · rwa [if_pos hex]
  · rw [if_neg hex]
    exact addFile_present_mono acc _ e _ x h

/-- Processing a directory entry never removes a file from a bucket. -/
theorem addEntryFiles_present_mono (excl : List (List Char))
    (subdir : List Char) (names : List (List Char)) (acc : FoundFiles)
    (e : FileExtension) (x : FileRecord) (h : Present e x acc) :
    Present e x (addEntryFiles excl subdir names acc) := by
  unfold addEntryFiles
  apply foldl_inv_mem (fun d => Present e x d) (stepFile excl subdir) names
  · intro d n _ hd
    exact stepFile_present_mono excl subdir d n e x hd
  · exact h

/-- Processing further walk entries never removes a file from a bucket. -/
theorem walkFold_present_mono (excl : List (List Char))
    (walk : List WalkEntry) (acc : FoundFiles) (e : FileExtension)
    (x : FileRecord) (h : Present e x acc) :
    Present e x (walk.foldl
      (fun acc w => addEntryFiles excl w.subdir w.files acc) acc) := by
  apply foldl_inv_mem (fun d => Present e x d)
    (fun acc w => addEntryFiles excl w.subdir w.files acc) walk
  · intro d w _ hd
    exact addEntryFiles_present_mono excl w.subdir w.files d e x hd
  · exact h

/-- A non-excluded base name listed in a directory entry is present in its
splitext bucket once that entry has been processed. -/
theorem addEntryFiles_present (excl : List (List Char)) (subdir : List Char)
    (name : List Char) (hex : excludedB excl name = false) :
    ∀ (names : List (List Char)) (acc : FoundFiles), name ∈ names →
      Present (splitextExt name) (subdir, name)
        (addEntryFiles excl subdir names acc) := by
  intro names
  induction names with
  | nil => intro acc h; cases h
  | cons n rest ih =>
    intro acc hmem
    unfold addEntryFiles
    simp only [List.foldl_cons]
    rcases List.mem_cons.mp hmem with heq | htail
    · subst heq
      have h1 : Present (splitextExt name) (subdir, name)
          (stepFile excl subdir acc name) := by
        unfold stepFile
        rw [if_neg (by simp [hex])]
        exact addFile_present acc _ _
      apply foldl_inv_mem (fun d => Present (splitextExt name) (subdir, name) d)
        (stepFile excl subdir) rest
      · intro d n' _ hd
        exact stepFile_present_mono excl subdir d n' _ _ hd
      · exact h1
    · exact ih (stepFile excl subdir acc n) htail

/-- A non-excluded file reachable in the walk is present in its splitext
bucket of the finished `find_files` dict. -/
theorem find_files_present (walk : List WalkEntry) (excl : List (List Char))
    (subdir name : List Char) (hex : excludedB excl name = false)
    (hin : ∃ w ∈ walk, w.subdir = subdir ∧ name ∈ w.files) :
    Present (splitextExt name) (subdir, name) (find_files walk excl) := by
  unfold find_files
  suffices h : ∀ (ws : List WalkEntry) (acc : FoundFiles),
      (∃ w ∈ ws, w.subdir = subdir ∧ name ∈ w.files) →
      Present (splitextExt name) (subdir, name) (ws.foldl
        (fun acc w => addEntryFiles excl w.subdir w.files acc) acc) by
    exact h walk [] hin
  intro ws
  induction ws with
  | nil => intro acc h; simp at h
  | cons w rest ih =>
    intro acc h
    simp only [List.foldl_cons]
    rcases h with ⟨w', hw', hsub, hname⟩
    rcases List.mem_cons.mp hw' with heq | htail
    · subst heq
      apply walkFold_present_mono
      rw [← hsub]
      exact addEntryFiles_present excl w'.subdir name hex w'.files acc hname
    · exact ih _ ⟨w', htail, hsub, hname⟩

/-- `l.get? n` succeeds exactly when `n` is a valid position. -/
theorem get?_isSome_iff {α : Type} :
    ∀ (l : List α) (n : Nat), (l.get? n).isSome = true ↔ n < l.length := by
  intro l
  induction l with
  | nil => intro n; simp [List.get?]
  | cons a t ih =>
    intro n
    cases n with
    | zero => simp [List.get?]
    | succ m => simpa [List.get?, Nat.succ_lt_succ_iff] using ih m

/-- Python indexing succeeds exactly on the index window `[-len, len)`
(negative positions counting from the back). -/
theorem pyIndex_isSome_iff {α : Type} (l : List α) (i : Int) :
    (pyIndex l i).isSome = true ↔ (-(l.length : Int) ≤ i ∧ i < l.length) := by
  unfold pyIndex
  by_cases h : (0:Int) ≤ i
  · rw [if_pos h, get?_isSome_iff]
    omega
  · rw [if_neg h]
    by_cases h2 : (0:Int) ≤ i + l.length
    · rw [if_pos h2, get?_isSome_iff]
      omega
    · rw [if_neg h2]
      simp only [Option.isSome_none, Bool.false_eq_true, false_iff]
      omega

/-- A fallible comprehension succeeds exactly when its body succeeds on every
element. -/
theorem mapE_ok_iff {α β : Type} (f : α → Except PyErr β) :
    ∀ l : List α,
      (∃ r, mapE f l = Except.ok r) ↔ ∀ a ∈ l, ∃ b, f a = Except.ok b := by
  intro l
  induction l with
  | nil => simp [mapE]
  | cons a as ih =>
    simp only [mapE, List.mem_cons]
    cases hfa : f a with
    | error e =>
      constructor
      · rintro ⟨r, hr⟩; cases hr
      · intro h
        obtain ⟨b, hb⟩ := h a (Or.inl rfl)
        rw [hfa] at hb
        cases hb
    | ok b =>
      cases hrec : mapE f as with
      | error e =>
        constructor
        · rintro ⟨r, hr⟩; cases hr
        · intro h
          have hok : ∃ r, mapE f as = Except.ok r :=
            ih.mpr (fun x hx => h x (Or.inr hx))
          rw [hrec] at hok
          obtain ⟨r, hr⟩ := hok
          cases hr
      | ok bs =>
        constructor
        · intro _ x hx
          rcases hx with heq | hmem
          · subst heq; exact ⟨b, hfa⟩
          · exact ih.mp ⟨bs, hrec⟩ x hmem
        · intro _; exact ⟨b :: bs, rfl⟩

/-- Every element of a successful comprehension's result comes from some
input element. -/
theorem mapE_ok_src {α β : Type} (f : α → Except PyErr β) :
    ∀ (l : List α) (bs : List β), mapE f l = Except.ok bs →
      ∀ b ∈ bs, ∃ a ∈ l, f a = Except.ok b := by
  intro l
  induction l with
  | nil =>
    intro bs h b hb
    simp only [mapE] at h
    injection h with h
    subst h
    cases hb
  | cons a as ih =>
    intro bs h b hb
    simp only [mapE] at h
    cases hfa : f a with
    | error e => rw [hfa] at h; cases h
    | ok b' =>
      rw [hfa] at h
      cases hrec : mapE f as with
      | error e => rw [hrec] at h; cases h
      | ok bs' =>
        rw [hrec] at h
        injection h with h
        subst h
        rcases List.mem_cons.mp hb with heq | hmem
        · subst heq; exact ⟨a, List.mem_cons_self _ _, hfa⟩
        · obtain ⟨a', ha', hfa'⟩ := ih bs' hrec b hmem
          exact ⟨a', List.mem_cons_of_mem _ ha', hfa'⟩

/-- Every input element of a successful comprehension contributes some
element of the result. -/
theorem mapE_ok_img {α β : Type} (f : α → Except PyErr β) :
    ∀ (l : List α) (bs : List β), mapE f l = Except.ok bs →
      ∀ a ∈ l, ∃ b ∈ bs, f a = Except.ok b := by
  intro l
  induction l with
  | nil => intro bs _ a ha; cases ha
  | cons a0 as ih =>
    intro bs h a ha
    simp only [mapE] at h
    cases hfa : f a0 with
    | error e => rw [hfa] at h; cases h
    | ok b' =>
      rw [hfa] at h
      cases hrec : mapE f as with
      | error e => rw [hrec] at h; cases h
      | ok bs' =>
        rw [hrec] at h
        injection h with h
        subst h
        rcases List.mem_cons.mp ha with heq | hmem
        · subst heq; exact ⟨b', List.mem_cons_self _ _, hfa⟩
        · obtain ⟨b, hb, hfb⟩ := ih bs' hrec a hmem
          exact ⟨b, List.mem_cons_of_mem _ hb, hfb⟩

/-- `int(idx.strip())` succeeds with value `n` exactly when the stripped
token parses to `n`. -/
theorem parseTok_ok_iff (t : List Char) (n : Int) :
    parseTok t = Except.ok n ↔ pyInt (strip t) = some n := by
  unfold parseTok
  cases h : pyInt (strip t) with
  | none => simp
  | some m => simp

/-- `available_extensions[idx-1]` succeeds exactly when `idx-1` is in the
Python index window. -/
theorem lookupIdx_ok_iff (avail : List FileExtension) (i : Int) :
    (∃ e, lookupIdx avail i = Except.ok e)
      ↔ (pyIndex avail (i - 1)).isSome = true := by
  unfold lookupIdx
  cases h : pyIndex avail (i - 1) with
  | none => simp
  | some e => simp

/-- Success characterisation of `get_user_selected_extensions`: it returns a
selection exactly when every comma-separated token parses as an integer whose
value lies in `[1 - len(available), len(available)]`. -/
theorem gUSE_ok_iff (avail : List FileExtension) (line : List Char) :
    (∃ r, get_user_selected_extensions avail line = Except.ok r) ↔
      ∀ t ∈ splitComma line, ∃ n : Int, pyInt (strip t) = some n ∧
        1 - (avail.length : Int) ≤ n ∧ n ≤ avail.length := by
  unfold get_user_selected_extensions
  cases hp : mapE parseTok (splitComma line) with
  | error e =>
    constructor
    · rintro ⟨r, hr⟩; cases hr
    · intro h
      have hok : ∃ r, mapE parseTok (splitComma line) = Except.ok r :=
        (mapE_ok_iff parseTok _).mpr (fun t ht => by
          obtain ⟨n, hn, _⟩ := h t ht
          exact ⟨n, (parseTok_ok_iff t n).mpr hn⟩)
      rw [hp] at hok
      obtain ⟨r, hr⟩ := hok
      cases hr
  | ok idxs =>
    constructor
    · intro hok t ht
      obtain ⟨n, hnmem, hfn⟩ := mapE_ok_img parseTok _ idxs hp t ht
      have hparse : pyInt (strip t) = some n := (parseTok_ok_iff t n).mp hfn
      refine ⟨n, hparse, ?_⟩
      have hlook := (mapE_ok_iff (lookupIdx avail) idxs).mp hok n hnmem
      have hsome := (lookupIdx_ok_iff avail n).mp hlook
      rw [pyIndex_isSome_iff] at hsome
      omega
    · intro h
      apply (mapE_ok_iff (lookupIdx avail) idxs).mpr
      intro n hn
      obtain ⟨t, ht, hfn⟩ := mapE_ok_src parseTok _ idxs hp n hn
      obtain ⟨n', hn', hrange⟩ := h t ht
      have hpn : pyInt (strip t) = some n := (parseTok_ok_iff t n).mp hfn
      rw [hn'] at hpn
      injection hpn with hnn
      subst hnn
      apply (lookupIdx_ok_iff avail n').mpr
      rw [pyIndex_isSome_iff]
      omega

/-- The progress denominator depends on the selection only through
membership. -/
theorem total_files_congr (files : FoundFiles) (s1 s2 : List FileExtension)
    (h : ∀ e, e ∈ s1 ↔ e ∈ s2) :
    total_files files s1 = total_files files s2 := by
  unfold total_files
  have hf : files.filter (fun p => decide (p.1 ∈ s1))
      = files.filter (fun p => decide (p.1 ∈ s2)) := by
    apply List.filter_congr
    intro p _
    rw [decide_eq_decide]
    exact h p.1
  rw [hf]

/-- The whole copy loop depends on the selection only through membership. -/
theorem runCopy_congr_selected (files : FoundFiles)
    (s1 s2 : List FileExtension) (clock : Nat → Nat) (outcome : Nat → Bool)
    (h : ∀ e, e ∈ s1 ↔ e ∈ s2) :
    runCopy files s1 clock outcome = runCopy files s2 clock outcome := by
  unfold runCopy
  rw [total_files_congr files s1 s2 h]
  suffices hh : ∀ (l : FoundFiles) (s : RunState),
      l.foldl (copyStep s1 clock outcome (total_files files s2)) s
        = l.foldl (copyStep s2 clock outcome (total_files files s2)) s by
    exact hh files initState
  intro l
  induction l with
  | nil => intro s; rfl
  | cons p ps ih =>
    intro s
    simp only [List.foldl_cons]
    have hstep : copyStep s1 clock outcome (total_files files s2) s p
        = copyStep s2 clock outcome (total_files files s2) s p := by
      unfold copyStep
      by_cases hm : p.1 ∈ s1
      · rw [if_pos hm, if_pos ((h p.1).mp hm)]
      · rw [if_neg hm, if_neg (fun hc => hm ((h p.1).mpr hc))]
    rw [hstep]
    exact ih _

/-- C1: the claim says `find_files` fails with a traversal error, surfaced
to the caller, whenever the root path does not exist or is inaccessible.
In the code `os.walk` runs with its default `onerror=None`, which swallows
the `OSError` raised by `os.scandir` on a missing or unreadable root and
produces an empty iteration, so `find_files` silently returns the empty
dict; the docstring's Raises clause and the driver's `except` arm for the
scan stage are unreachable this way, and the driver instead reports "No
files found".  This theorem evaluates the embedded code at the failing
input: the walk of such a root is empty and `find_files` returns `[]`
normally, for any exclusion list. -/
theorem C1_missing_root_yields_empty_dict (excl : List (List Char)) :
    find_files [] excl = [] := rfl

/-- C2 is false on the code: with one stored `.txt` file and the duplicated
selection (k = 2 occurrences), the claim predicts a pre-computed total of 2
and the file copied twice, but the loop iterates `files.items()` under a
membership test, so the total is 1 and exactly one copy attempt happens. -/
theorem C2_counterexample :
    total_files demoFiles [demoExt, demoExt] = 1
    ∧ (runCopy demoFiles [demoExt, demoExt]
        (fun _ => 0) (fun _ => true)).events.length = 1
    ∧ ¬ (total_files demoFiles [demoExt, demoExt] = 2
        ∧ (runCopy demoFiles [demoExt, demoExt]
            (fun _ => 0) (fun _ => true)).events.length = 2) := by decide

/-- C2 amended: duplicate occurrences in `selected_extensions` have no
effect at all — both the pre-computed total and the copy loop depend on the
selection only through membership (`ext in selected_extensions`), so any two
selections with the same members (in particular a selection and its
deduplication) produce identical runs: each selected extension's count is
added once and its file list processed once, regardless of multiplicity. -/
theorem C2_amended_membership_only (files : FoundFiles)
    (s1 s2 : List FileExtension) (clock : Nat → Nat) (outcome : Nat → Bool)
    (h : ∀ e, e ∈ s1 ↔ e ∈ s2) :
    runCopy files s1 clock outcome = runCopy files s2 clock outcome :=
  runCopy_congr_selected files s1 s2 clock outcome h

/-- Witness for C2 amended: the duplicated demo selection behaves exactly
like the single one. -/
theorem C2_amended_membership_only_witness :
    runCopy demoFiles [demoExt, demoExt] (fun _ => 0) (fun _ => true)
      = runCopy demoFiles [demoExt] (fun _ => 0) (fun _ => true) :=
  C2_amended_membership_only demoFiles [demoExt, demoExt] [demoExt]
    (fun _ => 0) (fun _ => true) (fun e => by simp)

/-- C3: the claim says an input line that is empty after trimming makes
`get_user_selected_extensions` return an empty sequence rather than fail,
the caller then stopping with its clear "No extensions selected" message.
In the code `''.split(',')` is `['']` and `int('')` raises ValueError, so
the call raises instead of ever returning `[]`; the driver exits through
its generic exception handler and the dedicated empty-selection branch
(which documents the claimed intent) is unreachable from empty input.
This theorem evaluates the embedded code at the failing input: the empty
line produces the ValueError on the empty token, whatever the available
extensions are. -/
theorem C3_empty_line_raises (avail : List FileExtension) :
    get_user_selected_extensions avail []
      = Except.error (PyErr.valueError []) := rfl

/-- C4 is false on the code at index 0: the token `0` parses, and
`available_extensions[0-1]` selects the last extension through Python
negative indexing, so the call succeeds instead of failing with a range
error. -/
theorem C4_counterexample :
    get_user_selected_extensions [demoExt] "0".toList
      = Except.ok [demoExt] := rfl

/-- C4 amended: `get_user_selected_extensions` succeeds exactly when every
comma-separated token parses as an integer (otherwise ValueError) whose
value lies in `[1 - len(available), len(available)]` (otherwise
IndexError); on any error the call raises before the driver can reach
`copy_files`, so no copying is performed.  The valid window is wider than
the claim's `[1, len(available)]`: index 0 and negative indices down to
`1 - len(available)` are accepted through Python negative indexing, index
0 selecting the last extension. -/
theorem C4_amended_parse_range (avail : List FileExtension)
    (line : List Char) :
    ((∃ r, get_user_selected_extensions avail line = Except.ok r) ↔
      ∀ t ∈ splitComma line, ∃ n : Int, pyInt (strip t) = some n ∧
        1 - (avail.length : Int) ≤ n ∧ n ≤ avail.length)
    ∧ (∀ i : Int, (pyIndex avail (i - 1)).isSome = true ↔
        (1 - (avail.length : Int) ≤ i ∧ i ≤ avail.length)) := by
  constructor
  · exact gUSE_ok_iff avail line
  · intro i
    rw [pyIndex_isSome_iff]
    omega

/-- Witness for C4 amended: the in-window input `0` makes the demo call
succeed. -/
theorem C4_amended_parse_range_witness :
    ∃ r, get_user_selected_extensions [demoExt] "0".toList = Except.ok r :=
  (C4_amended_parse_range [demoExt] "0".toList).1.mpr (fun t ht => by
    have heq : t = "0".toList := List.mem_singleton.mp ht
    subst heq
    exact ⟨0, rfl, by decide, by decide⟩)

/-- C5 is false on the code for a base name whose characters before the
last dot are all dots, e.g. `..gz`: the claim's rule (suffix from the last
dot; empty only when there is no dot, including when the sole dot is the
leading character) yields `.gz`, but `os.path.splitext` treats leading dots
as part of the stem, so `find_files` buckets the file under the empty
extension. -/
theorem C5_counterexample :
    find_files [⟨"r".toList, ["..gz".toList]⟩] []
        = [([], [("r".toList, "..gz".toList)])]
    ∧ specExtC5 "..gz".toList = ".gz".toList
    ∧ splitextExt "..gz".toList = [] := by decide

/-- C5 amended: every non-excluded file reachable in the walk appears in
exactly one bucket — it is present in the bucket keyed by its
`os.path.splitext` extension, any bucket containing it has exactly that
key, and bucket keys are pairwise distinct.  The key rule is splitext's:
the suffix from the last `.`, except that it is empty when the name has no
`.` or when every character before the last `.` is itself a `.` (leading
dots never start an extension). -/
theorem C5_amended_buckets (walk : List WalkEntry) (excl : List (List Char))
    (subdir name : List Char)
    (hin : ∃ w ∈ walk, w.subdir = subdir ∧ name ∈ w.files)
    (hex : excludedB excl name = false) :
    Present (splitextExt name) (subdir, name) (find_files walk excl)
    ∧ (∀ e fs, (e, fs) ∈ find_files walk excl → (subdir, name) ∈ fs →
        e = splitextExt name)
    ∧ ((find_files walk excl).map Prod.fst).Nodup := by
  refine ⟨find_files_present walk excl subdir name hex hin, ?_,
    (find_files_inv walk excl).2⟩
  intro e fs hmem hx
  exact ((find_files_inv walk excl).1 e fs hmem (subdir, name) hx).1

/-- Witness for C5 amended: `a.txt` of the demo walk sits exactly in the
`.txt` bucket, and the demo result has duplicate-free keys. -/
theorem C5_amended_buckets_witness :
    Present (splitextExt "a.txt".toList) ("r".toList, "a.txt".toList)
        (find_files demoWalk demoExcl)
    ∧ (∀ e fs, (e, fs) ∈ find_files demoWalk demoExcl →
        ("r".toList, "a.txt".toList) ∈ fs → e = splitextExt "a.txt".toList)
    ∧ ((find_files demoWalk demoExcl).map Prod.fst).Nodup :=
  C5_amended_buckets demoWalk demoExcl "r".toList "a.txt".toList
    (by decide) (by decide)

/-- C6: the returned stats satisfy `total == copied + failed` for every
dict, selection (duplicates included) and oracle pair; the empty selection
returns all-zero stats; and the equality is preserved across every single
file attempt, since one attempt adds exactly 1 to `total` and exactly 1 to
`copied + failed`. -/
theorem C6_stats_invariant (files : FoundFiles)
    (selected : List FileExtension) (clock : Nat → Nat) (outcome : Nat → Bool)
    (T : Nat) (s : RunState) (f : FileRecord) :
    (copy_files files selected clock outcome).total
        = (copy_files files selected clock outcome).copied
          + (copy_files files selected clock outcome).failed
    ∧ copy_files files [] clock outcome
        = { total := 0, copied := 0, failed := 0 }
    ∧ (processFile clock outcome T s f).stats.total = s.stats.total + 1
    ∧ (processFile clock outcome T s f).stats.copied
          + (processFile clock outcome T s f).stats.failed
        = s.stats.copied + s.stats.failed + 1 := by
  refine ⟨runCopy_total_eq files selected clock outcome, ?_,
    processFile_total clock outcome T s f,
    processFile_copied_failed clock outcome T s f⟩
  unfold copy_files runCopy
  rw [foldl_copyStep_nil]
  rfl

/-- C7 is false on the code when the two copies of same-named files happen
within the same clock second: the timestamp prefixes coincide, both
attempts write the same destination name, the second overwrites the first,
and the destination holds one file even though `copied == 2`. -/
theorem C7_counterexample :
    (runCopy [(".log".toList, [("a".toList, "dup.log".toList),
        ("b".toList, "dup.log".toList)])] [".log".toList]
      (fun _ => 11) (fun _ => true)).stats.copied = 2
    ∧ (destFiles (runCopy [(".log".toList, [("a".toList, "dup.log".toList),
        ("b".toList, "dup.log".toList)])] [".log".toList]
      (fun _ => 11) (fun _ => true)).events).length = 1 := by decide

/-- C7 amended: for two selected files sharing one base name, with both
copies succeeding, `copied == 2` always holds, and both files end up
present under distinct destination names (no overwrite) provided the two
attempts read different clock seconds; with equal clock values the names
coincide and the second copy overwrites the first. -/
theorem C7_amended_distinct_names (d1 d2 n e : List Char) (clock : Nat → Nat)
    (hclock : clock 0 ≠ clock 1) :
    (runCopy [(e, [(d1, n), (d2, n)])] [e] clock
        (fun _ => true)).stats.copied = 2
    ∧ (destFiles (runCopy [(e, [(d1, n), (d2, n)])] [e] clock
        (fun _ => true)).events).length = 2 := by
  have hrun : runCopy [(e, [(d1, n), (d2, n)])] [e] clock (fun _ => true)
      = { stats := { total := 2, copied := 2, failed := 0 }, attempts := 2,
          events := [{ src := (d1, n), dest := (clock 0, n), ok := true },
                     { src := (d2, n), dest := (clock 1, n), ok := true }],
          progress := [(1, 2), (2, 2)] } := by
    simp [runCopy, copyStep, processFile, total_files, initState,
      List.filter_cons]
  rw [hrun]
  refine ⟨rfl, ?_⟩
  show (([(clock 0, n), (clock 1, n)] : List (Nat × List Char)).dedup).length = 2
  rw [List.dedup_cons_of_not_mem (by simp [hclock]),
    List.dedup_cons_of_not_mem (List.not_mem_nil _), List.dedup_nil]
  rfl

/-- Witness for C7 amended: with the identity clock the two demo copies get
the prefixes 0 and 1 and both land in the destination. -/
theorem C7_amended_distinct_names_witness :
    (runCopy [(".log".toList, [("a".toList, "dup.log".toList),
        ("b".toList, "dup.log".toList)])] [".log".toList] (fun i => i)
      (fun _ => true)).stats.copied = 2
    ∧ (destFiles (runCopy [(".log".toList, [("a".toList, "dup.log".toList),
        ("b".toList, "dup.log".toList)])] [".log".toList] (fun i => i)
      (fun _ => true)).events).length = 2 :=
  C7_amended_distinct_names "a".toList "b".toList "dup.log".toList
    ".log".toList (fun i => i) (by decide)

/-- C8: an individual copy failure never escapes the loop — the embedded
run is a total function, a failing attempt increments `failed_files`,
records the event and continues — and under the all-failures oracle the run
still returns normally with `failed == total` and `copied == 0`. -/
theorem C8_failures_recovered (files : FoundFiles)
    (selected : List FileExtension) (clock : Nat → Nat) (T : Nat)
    (s : RunState) (f : FileRecord) :
    (copy_files files selected clock (fun _ => false)).failed
        = (copy_files files selected clock (fun _ => false)).total
    ∧ (copy_files files selected clock (fun _ => false)).copied = 0
    ∧ (processFile clock (fun _ => false) T s f).stats.failed
        = s.stats.failed + 1
    ∧ (processFile clock (fun _ => false) T s f).events
        = s.events ++ [(⟨f, (clock s.attempts, f.2), false⟩ : CopyEvent)] :=
  ⟨(runCopy_all_failed files selected clock).2,
    (runCopy_all_failed files selected clock).1, rfl, rfl⟩

/-- C9: a file whose base name contains any exclusion substring
(case-sensitively, base name only) is absent from every bucket of the scan
result, for every walk. -/
theorem C9_excluded_absent (walk : List WalkEntry) (excl : List (List Char))
    (subdir name : List Char)
    (h : ∃ sub ∈ excl, isSubstr sub name = true) :
    ∀ e fs, (e, fs) ∈ find_files walk excl → (subdir, name) ∉ fs := by
  intro e fs hmem hx
  have hinv := (find_files_inv walk excl).1 e fs hmem (subdir, name) hx
  have htrue : excludedB excl name = true := by
    unfold excludedB
    rw [List.any_eq_true]
    obtain ⟨sub, hsub, hs⟩ := h
    exact ⟨sub, hsub, hs⟩
  have hfalse : excludedB excl name = false := hinv.2
  rw [hfalse] at htrue
  cases htrue

/-- Witness for C9: `c.txt` matches the demo exclusion substring `c` and is
in no bucket of the demo scan. -/
theorem C9_excluded_absent_witness :
    (∃ sub ∈ demoExcl, isSubstr sub "c.txt".toList = true)
    ∧ ∀ e fs, (e, fs) ∈ find_files demoWalk demoExcl →
        ("r".toList, "c.txt".toList) ∉ fs :=
  ⟨by decide, C9_excluded_absent demoWalk demoExcl "r".toList
    "c.txt".toList (by decide)⟩

/-- C10: every recorded `print_progress(copied_files, total_files)` call
passes the pre-computed denominator as `total`, and that denominator is
strictly positive — any iterated file belongs to a selected extension whose
stored list is nonempty and is counted by the denominator — so the division
`current / total` inside `print_progress` never divides by zero. -/
theorem C10_progress_total_pos (files : FoundFiles)
    (selected : List FileExtension) (clock : Nat → Nat) (outcome : Nat → Bool)
    (pr : Nat × Nat)
    (hpr : pr ∈ (runCopy files selected clock outcome).progress) :
    pr.2 = total_files files selected ∧ 0 < pr.2 := by
  obtain ⟨h1, h2⟩ := runCopy_progress_pos files selected clock outcome pr hpr
  exact ⟨h1, h1 ▸ h2⟩

/-- Witness for C10: the demo run makes one progress call, `(1, 1)`, whose
denominator is the demo total and is positive. -/
theorem C10_progress_total_pos_witness :
    ((1, 1) : Nat × Nat).2 = total_files demoFiles [demoExt]
    ∧ 0 < ((1, 1) : Nat × Nat).2 :=
  C10_progress_total_pos demoFiles [demoExt] (fun _ => 7) (fun _ => true)
    (1, 1) (by decide)

